import Mathlib

/-!
Shallow embedding of the habit-tracker server (src/index.js).

The server keeps habits either in MongoDB or in an in-process list.  We model
the in-memory backend exactly (a list of habits plus a counter `habitId`), and
the MongoDB list query `Habit.find().sort(\x7bcreatedAt: -1\x7d)` as a merge
sort on the stored documents.  Timestamps are naturals, dates are strings
(as in the JS code, `YYYY-MM-DD`), weekdays are naturals 0-6.
-/

namespace HabiTracker

/-- A habit record, as stored by the server: `_id`, `title`, `days` (weekday
numbers), `history` (date strings), `createdAt` timestamp. -/
structure Habit where
  _id : Nat
  title : String
  days : List Nat
  history : List String
  createdAt : Nat
deriving Repr, DecidableEq

/-- The in-memory store: `let habits = []; let habitId = 1;`. -/
structure Store where
  habits : List Habit
  habitId : Nat
deriving Repr, DecidableEq

/-- Initial in-memory state of the server process. -/
def initialStore : Store := ⟨[], 1⟩

/-- The toggle reconciliation from `PATCH /api/habits/:id/toggle`:

```
const todayIndex = habit.history.indexOf(today);
if (todayIndex === -1) \x7b
  habit.history.push(today);
  if (!habit.days.includes(dayOfWeek)) habit.days.push(dayOfWeek);
\x7d else \x7b
  habit.history.splice(todayIndex, 1);
  const dayIndex = habit.days.indexOf(dayOfWeek);
  if (dayIndex !== -1) habit.days.splice(dayIndex, 1);
\x7d
```

`indexOf` + `splice(i,1)` removes the first occurrence, which is exactly
`List.erase` (and `List.erase` is the identity when the element is absent,
matching the `dayIndex !== -1` guard). -/
def toggleHabit (today : String) (dayOfWeek : Nat) (h : Habit) : Habit :=
  if today ∈ h.history then
    { h with history := h.history.erase today,
             days := h.days.erase dayOfWeek }
  else
    { h with history := h.history ++ [today],
             days := if dayOfWeek ∈ h.days then h.days else h.days ++ [dayOfWeek] }

/-- The JS `String.prototype.trim`: drop whitespace characters from both
ends of the string. -/
def jsTrim (s : String) : String :=
  ⟨((s.data.dropWhile Char.isWhitespace).reverse.dropWhile
      Char.isWhitespace).reverse⟩

/-- `POST /api/habits` on the in-memory backend.  The body may lack a title
(`none`).  `if (!title || title.trim() === \x27\x27) return 400` (`!title`
is true exactly for a missing or empty-string title); otherwise a new habit
(trimmed title, empty `days`/`history`, `createdAt` now, fresh
`_id = habitId++`) is appended to `habits` and returned with status 201.
The result is `((status, returned habit), new store)`. -/
def createHabit (title? : Option String) (now : Nat) (s : Store) :
    (Nat × Option Habit) × Store :=
  match title? with
  | none => ((400, none), s)
  | some title =>
    if title = "" ∨ jsTrim title = "" then ((400, none), s)
    else
      let newHabit : Habit := ⟨s.habitId, jsTrim title, [], [], now⟩
      ((201, some newHabit), ⟨s.habits ++ [newHabit], s.habitId + 1⟩)

/-- Replace the first element satisfying `p` by its image under `f`, leaving
the rest untouched: the JS `habits.find(...)` followed by in-place mutation of
the found object. -/
def updateFirst (p : Habit → Bool) (f : Habit → Habit) : List Habit → List Habit
  | [] => []
  | h :: t => if p h then f h :: t else h :: updateFirst p f t

/-- `PATCH /api/habits/:id/toggle` on the in-memory backend:
`habits.find(h => h._id == id)`; 404 when absent, otherwise the found habit is
mutated in place by the toggle reconciliation and returned with status 200. -/
def toggleEndpoint (id : Nat) (today : String) (dayOfWeek : Nat) (s : Store) :
    (Nat × Option Habit) × Store :=
  match s.habits.find? (fun h => h._id == id) with
  | none => ((404, none), s)
  | some h =>
    ((200, some (toggleHabit today dayOfWeek h)),
     ⟨updateFirst (fun g => g._id == id) (toggleHabit today dayOfWeek) s.habits,
      s.habitId⟩)

/-- `DELETE /api/habits/:id` on the in-memory backend:
`habits.findIndex(h => h._id == id)`; 404 when `-1`, otherwise
`habits.splice(habitIndex, 1)`.  The returned value is the status together
with the message body on success. -/
def deleteHabit (id : Nat) (s : Store) : (Nat × Option String) × Store :=
  match s.habits.findIdx? (fun h => h._id == id) with
  | none => ((404, none), s)
  | some i =>
    ((200, some "Habit deleted successfully"), ⟨s.habits.eraseIdx i, s.habitId⟩)

/-- `GET /api/habits`.  When connected, MongoDB returns the documents sorted
by `createdAt` descending (`.sort(\x7bcreatedAt: -1\x7d)`), modelled by a
merge sort with the `b.createdAt ≤ a.createdAt` comparison; the in-memory
branch returns the `habits` list as is (`res.json(habits)`). -/
def listHabits (isConnected : Bool) (dbHabits : List Habit) (s : Store) :
    List Habit :=
  if isConnected then
    dbHabits.mergeSort (fun a b => b.createdAt ≤ a.createdAt)
  else
    s.habits

/-- A motivational quote `\x7btext, author\x7d`. -/
structure Quote where
  text : String
  author : String
deriving Repr, DecidableEq

/-- The fixed built-in fallback list of 3 quotes in `GET /api/motivation`. -/
def fallbackQuotes : List Quote :=
  [⟨"The only way to do great work is to love what you do.", "Steve Jobs"⟩,
   ⟨"Believe you can and you\x27re halfway there.", "Theodore Roosevelt"⟩,
   ⟨"It always seems impossible until it\x27s done.", "Nelson Mandela"⟩]

/-- `GET /api/motivation`.  The outbound fetch either succeeds with a parsed
list of quotes or fails (network error, timeout, unparsable body); `randIdx`
models `Math.floor(Math.random() * length)` for whichever list is indexed.
On success the code returns `quotes[randIdx]` with no validation of the
element (so an out-of-range index, as with an empty fetched list, yields
`undefined`, modelled by `none`); on failure it indexes the fallback list. -/
def motivation (fetchResult : Except String (List Quote)) (randIdx : Nat) :
    Option Quote :=
  match fetchResult with
  | Except.ok quotes => quotes[randIdx]?
  | Except.error _ => fallbackQuotes[randIdx]?

/-! ## Theorems -/

/-- C1.  Toggle step contract: when the found habit does not have today in its
history, toggle appends today to `history` and appends the current weekday to
`days` exactly when it is absent; when today is in `history`, toggle removes
the first occurrence of today from `history` and the first occurrence of the
current weekday from `days` when it is present (and leaves `days` untouched
when it is absent).  The mutated habit is what the endpoint returns. -/
theorem toggle_contract (id : Nat) (today : String) (w : Nat) (s : Store)
    (h : Habit) (hfind : s.habits.find? (fun g => g._id == id) = some h) :
    (toggleEndpoint id today w s).1 = (200, some (toggleHabit today w h)) ∧
    (today ∉ h.history →
      (toggleHabit today w h).history = h.history ++ [today] ∧
      (w ∉ h.days → (toggleHabit today w h).days = h.days ++ [w]) ∧
      (w ∈ h.days → (toggleHabit today w h).days = h.days)) ∧
    (today ∈ h.history →
      (toggleHabit today w h).history = h.history.erase today ∧
      (w ∈ h.days → (toggleHabit today w h).days = h.days.erase w) ∧
      (w ∉ h.days → (toggleHabit today w h).days = h.days)) := by
  refine ⟨?_, ?_, ?_⟩
  · simp [toggleEndpoint, hfind]
  · intro hmem
    refine ⟨?_, fun hw => ?_, fun hw => ?_⟩
    · simp [toggleHabit, if_neg hmem]
    · simp [toggleHabit, if_neg hmem, if_neg hw]
    · simp [toggleHabit, if_neg hmem, if_pos hw]
  · intro hmem
    refine ⟨?_, fun hw => ?_, fun hw => ?_⟩
    · simp [toggleHabit, if_pos hmem]
    · simp [toggleHabit, if_pos hmem]
    · simp [toggleHabit, if_pos hmem, List.erase_of_not_mem hw]

/-- Witness for C1: a concrete store holding one habit; both toggle
directions evaluated. -/
theorem toggle_contract_witness :
    (toggleEndpoint 1 "2024-01-08" 1
        ⟨[⟨1, "run", [1], ["2024-01-01"], 0⟩], 2⟩).1 =
      (200, some (toggleHabit "2024-01-08" 1 ⟨1, "run", [1], ["2024-01-01"], 0⟩)) ∧
    (toggleHabit "2024-01-08" 1 ⟨1, "run", [1], ["2024-01-01"], 0⟩).history =
      ["2024-01-01"] ++ ["2024-01-08"] := by
  have hc := toggle_contract 1 "2024-01-08" 1
    ⟨[⟨1, "run", [1], ["2024-01-01"], 0⟩], 2⟩ ⟨1, "run", [1], ["2024-01-01"], 0⟩
    (by decide)
  exact ⟨hc.1, (hc.2.1 (by decide)).1⟩

/-- C2 counterexample: toggling twice in the same day does not return every
habit to its original state.  The habit below was completed on Monday
2024-01-01 (so `days = [1]`); toggling on Monday 2024-01-08 twice removes
weekday 1 from `days` even though `history` still holds a Monday date. -/
theorem toggle_selfInverse_counterexample :
    toggleHabit "2024-01-08" 1
        (toggleHabit "2024-01-08" 1 ⟨1, "run", [1], ["2024-01-01"], 0⟩) ≠
      ⟨1, "run", [1], ["2024-01-01"], 0⟩ := by
  decide

/-- C2 amended: for every stored habit such that today is not yet in
`history` and the current weekday is not yet in `days` (in particular a
freshly created habit), applying toggle twice in the same day returns the
habit exactly to its original state. -/
theorem toggle_selfInverse (today : String) (w : Nat) (h : Habit)
    (hh : today ∉ h.history) (hd : w ∉ h.days) :
    toggleHabit today w (toggleHabit today w h) = h := by
  have h1 : toggleHabit today w h =
      { h with history := h.history ++ [today], days := h.days ++ [w] } := by
    simp [toggleHabit, if_neg hh, if_neg hd]
  have hmem : today ∈ h.history ++ [today] := by simp
  have h2 : (h.history ++ [today]).erase today = h.history := by
    rw [List.erase_append_right _ hh]
    simp
  have h3 : (h.days ++ [w]).erase w = h.days := by
    rw [List.erase_append_right _ hd]
    simp
  rw [h1]
  simp only [toggleHabit, hmem, if_pos]
  simp [h2, h3]

/-- Witness for C2 amended: double toggle on a freshly created habit is the
identity. -/
theorem toggle_selfInverse_witness :
    toggleHabit "2024-01-08" 1
        (toggleHabit "2024-01-08" 1 ⟨1, "run", [], [], 0⟩) =
      ⟨1, "run", [], [], 0⟩ :=
  toggle_selfInverse "2024-01-08" 1 ⟨1, "run", [], [], 0⟩
    (by decide) (by decide)

/-- The spec §3 invariant: a weekday value appears in `days` if and only if
at least one date in `history` falls on that weekday, where `wd` gives the
weekday (0-6) a date string falls on. -/
def weekdayInvariant (wd : String → Nat) (h : Habit) : Prop :=
  ∀ k, k ∈ h.days ↔ ∃ d ∈ h.history, wd d = k

/-- The forward half of the invariant: every weekday in `days` is witnessed
by at least one date in `history`. -/
def daysWitnessed (wd : String → Nat) (h : Habit) : Prop :=
  ∀ k ∈ h.days, ∃ d ∈ h.history, wd d = k

/-- The calendar weekday of the two January 2024 dates used below:
2024-01-01 and 2024-01-08 are both Mondays (`getDay() = 1`). -/
def wdJan2024 : String → Nat := fun d =>
  if d = "2024-01-01" then 1 else if d = "2024-01-08" then 1 else 0

/-- C3 counterexample: the if-and-only-if weekday invariant is not preserved
by toggle.  The habit was completed on the Mondays 2024-01-01 and 2024-01-08
with `days = [1]`, which satisfies the invariant; toggling off on 2024-01-08
(current weekday 1, consistent with today) removes weekday 1 from `days` even
though 2024-01-01 still lies in `history`, breaking the invariant. -/
theorem toggle_weekdayInvariant_counterexample :
    weekdayInvariant wdJan2024
        ⟨1, "run", [1], ["2024-01-01", "2024-01-08"], 0⟩ ∧
    wdJan2024 "2024-01-08" = 1 ∧
    ¬ weekdayInvariant wdJan2024
        (toggleHabit "2024-01-08" 1
          ⟨1, "run", [1], ["2024-01-01", "2024-01-08"], 0⟩) := by
  refine ⟨?_, rfl, ?_⟩
  · intro k
    constructor
    · intro hk
      simp only [List.mem_singleton] at hk
      exact ⟨"2024-01-01", by simp, by simp [wdJan2024, hk]⟩
    · rintro ⟨d, hd, hwd⟩
      simp only [List.mem_cons, List.not_mem_nil, or_false] at hd
      rcases hd with rfl | rfl <;> simp_all [wdJan2024]
  · intro hinv
    have h1 : (1 : Nat) ∈ (toggleHabit "2024-01-08" 1
        ⟨1, "run", [1], ["2024-01-01", "2024-01-08"], 0⟩).days := by
      refine (hinv 1).mpr ⟨"2024-01-01", ?_, by simp [wdJan2024]⟩
      decide
    revert h1
    decide

/-- C3 amended: toggle preserves the forward half of the invariant.  For
every habit whose `days` has no duplicates and in which every weekday of
`days` is witnessed by some `history` date, toggling with the current
weekday consistent with today keeps every weekday of `days` witnessed.
The reverse direction of the invariant is not preserved. -/
theorem toggle_preserves_daysWitnessed (wd : String → Nat) (today : String)
    (w : Nat) (h : Habit) (hnd : h.days.Nodup) (hcw : wd today = w)
    (hinv : daysWitnessed wd h) :
    daysWitnessed wd (toggleHabit today w h) := by
  intro k hk
  by_cases hmem : today ∈ h.history
  · simp only [toggleHabit, if_pos hmem] at hk ⊢
    have hk' : k ≠ w ∧ k ∈ h.days := (List.Nodup.mem_erase_iff hnd).mp hk
    obtain ⟨d, hd, hwd⟩ := hinv k hk'.2
    have hdneq : d ≠ today := by
      intro heq
      exact hk'.1 (by rw [← hwd, heq, hcw])
    exact ⟨d, (List.mem_erase_of_ne hdneq).mpr hd, hwd⟩
  · simp only [toggleHabit, if_neg hmem] at hk ⊢
    by_cases hw : w ∈ h.days
    · rw [if_pos hw] at hk
      obtain ⟨d, hd, hwd⟩ := hinv k hk
      exact ⟨d, by simp [hd], hwd⟩
    · rw [if_neg hw] at hk
      rcases List.mem_append.mp hk with hk' | hk'
      · obtain ⟨d, hd, hwd⟩ := hinv k hk'
        exact ⟨d, by simp [hd], hwd⟩
      · simp only [List.mem_singleton] at hk'
        exact ⟨today, by simp, by rw [hcw, hk']⟩

/-- Witness for C3 amended: the drifting habit of the counterexample still
satisfies the forward half after toggling. -/
theorem toggle_preserves_daysWitnessed_witness :
    daysWitnessed wdJan2024
      (toggleHabit "2024-01-08" 1
        ⟨1, "run", [1], ["2024-01-01", "2024-01-08"], 0⟩) := by
  refine toggle_preserves_daysWitnessed wdJan2024 "2024-01-08" 1
    ⟨1, "run", [1], ["2024-01-01", "2024-01-08"], 0⟩ (by decide) rfl ?_
  intro k hk
  simp only [List.mem_singleton] at hk
  exact ⟨"2024-01-01", by simp, by simp [wdJan2024, hk]⟩

/-- A single toggle preserves duplicate-freeness of both `days` and
`history`. -/
theorem toggleHabit_nodup (today : String) (w : Nat) (h : Habit)
    (hd : h.days.Nodup) (hh : h.history.Nodup) :
    (toggleHabit today w h).days.Nodup ∧
      (toggleHabit today w h).history.Nodup := by
  unfold toggleHabit
  by_cases hmem : today ∈ h.history
  · rw [if_pos hmem]
    exact ⟨hd.erase w, hh.erase today⟩
  · rw [if_neg hmem]
    refine ⟨?_, ?_⟩
    · by_cases hw : w ∈ h.days
      · simpa [if_pos hw] using hd
      · simp [if_neg hw, List.nodup_append, hd, hw]
    · simp [List.nodup_append, hh, hmem]

/-- Toggling twice in the same day leaves `history` and `days` no longer
than one past their original length, for every habit whatsoever. -/
theorem toggleHabit_twice_len (today : String) (w : Nat) (h : Habit) :
    (toggleHabit today w (toggleHabit today w h)).history.length ≤
      h.history.length + 1 ∧
    (toggleHabit today w (toggleHabit today w h)).days.length ≤
      h.days.length + 1 := by
  have herase : ∀ (l : List String) (a : String), (l.erase a).length ≤ l.length :=
    fun l a => (List.erase_sublist a l).length_le
  have heraseN : ∀ (l : List Nat) (a : Nat), (l.erase a).length ≤ l.length :=
    fun l a => (List.erase_sublist a l).length_le
  by_cases hmem : today ∈ h.history
  · have h1 : toggleHabit today w h =
        { h with history := h.history.erase today, days := h.days.erase w } := by
      simp [toggleHabit, if_pos hmem]
    rw [h1]
    unfold toggleHabit
    by_cases hmem2 : today ∈ h.history.erase today
    · rw [if_pos hmem2]
      constructor
      · exact le_trans (herase _ _) (le_trans (herase _ _) (Nat.le_succ _))
      · exact le_trans (heraseN _ _) (le_trans (heraseN _ _) (Nat.le_succ _))
    · rw [if_neg hmem2]
      constructor
      · simpa using Nat.succ_le_succ (herase _ _)
      · by_cases hw : w ∈ h.days.erase w
        · simpa [if_pos hw] using le_trans (heraseN _ _) (Nat.le_succ _)
        · simpa [if_neg hw] using Nat.succ_le_succ (heraseN _ _)
  · have h1 : toggleHabit today w h =
        { h with history := h.history ++ [today],
                 days := if w ∈ h.days then h.days else h.days ++ [w] } := by
      simp [toggleHabit, if_neg hmem]
    rw [h1]
    have hmem2 : today ∈ h.history ++ [today] := by simp
    unfold toggleHabit
    rw [if_pos hmem2]
    constructor
    · simp only [List.length_append, List.length_singleton]
      exact le_trans (herase _ _) (by simp)
    · by_cases hw : w ∈ h.days
      · simpa [if_pos hw] using le_trans (heraseN _ _) (Nat.le_succ _)
      · simp only [if_neg hw]
        exact le_trans (heraseN _ _) (by simp)

/-- Habits reachable from creation (`days = []`, `history = []`) by any
sequence of toggle operations. -/
inductive ReachableHabit : Habit → Prop where
  | created (id : Nat) (t : String) (ts : Nat) :
      ReachableHabit ⟨id, t, [], [], ts⟩
  | toggled (today : String) (w : Nat) (h : Habit) :
      ReachableHabit h → ReachableHabit (toggleHabit today w h)

/-- C4.  No-duplicates invariant: every habit reachable from creation via any
sequence of toggles has duplicate-free `days` and `history`; in particular,
toggling it twice in the same day never grows `history` or `days` beyond one
element over the original (what a single add produces). -/
theorem reachable_nodup (h : Habit) (hr : ReachableHabit h) :
    h.days.Nodup ∧ h.history.Nodup ∧
    ∀ today w,
      (toggleHabit today w (toggleHabit today w h)).history.length ≤
        h.history.length + 1 ∧
      (toggleHabit today w (toggleHabit today w h)).days.length ≤
        h.days.length + 1 := by
  induction hr with
  | created id t ts =>
      exact ⟨List.nodup_nil, List.nodup_nil,
        fun today w => toggleHabit_twice_len today w _⟩
  | toggled today w h hr ih =>
      obtain ⟨hd, hh, -⟩ := ih
      have hmain := toggleHabit_nodup today w h hd hh
      exact ⟨hmain.1, hmain.2, fun t2 w2 => toggleHabit_twice_len t2 w2 _⟩

/-- Witness for C4: a habit created and then toggled once is reachable and
the conclusions evaluate on it. -/
theorem reachable_nodup_witness :
    (toggleHabit "2024-01-08" 1 ⟨1, "run", [], [], 0⟩).days.Nodup ∧
    (toggleHabit "2024-01-08" 1 ⟨1, "run", [], [], 0⟩).history.Nodup ∧
    ∀ today w,
      (toggleHabit today w (toggleHabit today w
          (toggleHabit "2024-01-08" 1 ⟨1, "run", [], [], 0⟩))).history.length ≤
        (toggleHabit "2024-01-08" 1 ⟨1, "run", [], [], 0⟩).history.length + 1 ∧
      (toggleHabit today w (toggleHabit today w
          (toggleHabit "2024-01-08" 1 ⟨1, "run", [], [], 0⟩))).days.length ≤
        (toggleHabit "2024-01-08" 1 ⟨1, "run", [], [], 0⟩).days.length + 1 :=
  reachable_nodup (toggleHabit "2024-01-08" 1 ⟨1, "run", [], [], 0⟩)
    (ReachableHabit.toggled "2024-01-08" 1 ⟨1, "run", [], [], 0⟩
      (ReachableHabit.created 1 "run" 0))

/-- C5 counterexample: the in-memory backend does not order habits
newest-created-first.  Creating "a" at time 1 and then "b" at time 2 leaves
the in-memory list in insertion order (oldest first), which is not sorted by
descending `createdAt`. -/
theorem list_ordering_counterexample :
    (createHabit (some "b") 2 (createHabit (some "a") 1 initialStore).2).2 =
      ⟨[⟨1, "a", [], [], 1⟩, ⟨2, "b", [], [], 2⟩], 3⟩ ∧
    ¬ List.Sorted (fun x y : Habit => y.createdAt ≤ x.createdAt)
        (listHabits false []
          ⟨[⟨1, "a", [], [], 1⟩, ⟨2, "b", [], [], 2⟩], 3⟩) := by
  constructor
  · decide
  · intro hs
    have h12 := List.rel_of_sorted_cons hs ⟨2, "b", [], [], 2⟩ (by decide)
    exact absurd h12 (by decide)

/-- C5 amended: only the MongoDB backend returns habits sorted
newest-created-first (descending `createdAt`); the in-memory backend returns
the stored list unchanged, in insertion (creation) order. -/
theorem list_ordering (db : List Habit) (s : Store) :
    List.Sorted (fun x y : Habit => y.createdAt ≤ x.createdAt)
        (listHabits true db s) ∧
    listHabits false db s = s.habits := by
  refine ⟨?_, rfl⟩
  have hp := @List.sorted_mergeSort Habit
      (fun a b : Habit => decide (b.createdAt ≤ a.createdAt))
      (fun a b c hab hbc =>
        decide_eq_true
          (Nat.le_trans (of_decide_eq_true hbc) (of_decide_eq_true hab)))
      (fun a b => by
        rcases Nat.le_total b.createdAt a.createdAt with hle | hle <;> simp [hle])
      db
  exact hp.imp (fun hab => of_decide_eq_true hab)

/-- C6.  Create validation with atomicity: creation responds 400 exactly when
the title is absent from the body or empty after trimming (including a
whitespace-only title), and on that failure the store is unchanged, so the
rejected habit cannot appear in a subsequent in-memory list. -/
theorem create_validation (title? : Option String) (now : Nat) (s : Store) :
    ((createHabit title? now s).1.1 = 400 ↔
      title? = none ∨ ∃ t, title? = some t ∧ jsTrim t = "") ∧
    ((createHabit title? now s).1.1 = 400 →
      (createHabit title? now s).2 = s ∧
      ∀ db, listHabits false db (createHabit title? now s).2 =
        listHabits false db s) := by
  cases title? with
  | none => simp [createHabit]
  | some t =>
    by_cases hcond : t = "" ∨ jsTrim t = ""
    · have htr : jsTrim t = "" := by
        rcases hcond with rfl | h
        · rfl
        · exact h
      simp [createHabit, if_pos hcond, htr]
    · push_neg at hcond
      obtain ⟨ht0, htr⟩ := hcond
      simp [createHabit, ht0, htr]

/-- Witness for C6: the whitespace-only title `"  "` from the spec is
rejected with 400 and leaves the initial store untouched. -/
theorem create_validation_witness :
    (((createHabit (some "  ") 0 initialStore).1.1 = 400 ↔
        (some "  " : Option String) = none ∨
          ∃ t, (some "  " : Option String) = some t ∧ jsTrim t = "") ∧
      ((createHabit (some "  ") 0 initialStore).1.1 = 400 →
        (createHabit (some "  ") 0 initialStore).2 = initialStore ∧
        ∀ db, listHabits false db (createHabit (some "  ") 0 initialStore).2 =
          listHabits false db initialStore)) ∧
    (createHabit (some "  ") 0 initialStore).1.1 = 400 :=
  ⟨create_validation (some "  ") 0 initialStore, by decide⟩

/-- C7.  Create postcondition: for a title that is non-empty after trimming,
creation succeeds with 201 and a habit carrying the trimmed title, empty
`days` and `history`, `createdAt = now` and the fresh id `habitId`; the
in-memory store becomes the old list with exactly that habit appended, and
(when all stored ids are below the counter) a subsequent in-memory list
holds exactly one habit with the new id. -/
theorem create_success (title : String) (now : Nat) (s : Store)
    (hv : jsTrim title ≠ "")
    (hfresh : ∀ g ∈ s.habits, g._id < s.habitId) :
    ∃ hab : Habit,
      createHabit (some title) now s =
        ((201, some hab), ⟨s.habits ++ [hab], s.habitId + 1⟩) ∧
      hab.title = jsTrim title ∧ hab.days = [] ∧ hab.history = [] ∧
      hab.createdAt = now ∧ hab._id = s.habitId ∧
      (listHabits false [] ⟨s.habits ++ [hab], s.habitId + 1⟩).countP
        (fun g => g._id == hab._id) = 1 := by
  have hcond : ¬(title = "" ∨ jsTrim title = "") := by
    rintro (rfl | h)
    · exact hv rfl
    · exact hv h
  refine ⟨⟨s.habitId, jsTrim title, [], [], now⟩, ?_, rfl, rfl, rfl, rfl, rfl, ?_⟩
  · simp [createHabit, if_neg hcond]
  · have h0 : s.habits.countP (fun g => g._id == s.habitId) = 0 := by
      rw [List.countP_eq_zero]
      intro g hg
      simp only [beq_iff_eq]
      exact Nat.ne_of_lt (hfresh g hg)
    simp [listHabits, List.countP_append, h0]

/-- Witness for C7: creating `" run "` in the empty initial store yields the
trimmed habit `"run"` with id 1. -/
theorem create_success_witness :
    ∃ hab : Habit,
      createHabit (some " run ") 5 initialStore =
        ((201, some hab), ⟨initialStore.habits ++ [hab], initialStore.habitId + 1⟩) ∧
      hab.title = jsTrim " run " ∧ hab.days = [] ∧ hab.history = [] ∧
      hab.createdAt = 5 ∧ hab._id = initialStore.habitId ∧
      (listHabits false []
          ⟨initialStore.habits ++ [hab], initialStore.habitId + 1⟩).countP
        (fun g => g._id == hab._id) = 1 :=
  create_success " run " 5 initialStore (by decide) (by simp [initialStore])

/-- `splice(findIndex(p), 1)` removes exactly the first element satisfying
`p`: erasing at the index found by `findIdx?` is `eraseP`. -/
theorem eraseIdx_findIdx?_eq_eraseP (p : Habit → Bool) :
    ∀ (l : List Habit) (i : Nat),
      l.findIdx? p = some i → l.eraseIdx i = l.eraseP p := by
  intro l
  induction l with
  | nil => intro i h; simp at h
  | cons a t ih =>
    intro i h
    rw [List.findIdx?_cons] at h
    by_cases hp : p a
    · rw [if_pos hp] at h
      injection h with h
      subst h
      simp [List.eraseIdx, List.eraseP_cons_of_pos hp]
    · rw [if_neg hp, List.findIdx?_start_succ] at h
      cases hfi : t.findIdx? p with
      | none => rw [hfi] at h; simp at h
      | some j =>
        rw [hfi] at h
        simp at h
        subst h
        simp [List.eraseIdx, List.eraseP_cons_of_neg hp, ih j hfi]

/-- If at most one element of the list satisfies `p`, then after `eraseP p`
no element satisfies `p`. -/
theorem eraseP_no_match (p : Habit → Bool) :
    ∀ l : List Habit, l.countP p ≤ 1 → ∀ g ∈ l.eraseP p, ¬p g = true := by
  intro l
  induction l with
  | nil => intro _ g hg; simp at hg
  | cons a t ih =>
    intro hcount g hg
    by_cases hp : p a
    · rw [List.eraseP_cons_of_pos hp] at hg
      rw [List.countP_cons_of_pos _ _ hp] at hcount
      have ht : t.countP p = 0 := by omega
      exact List.countP_eq_zero.mp ht g hg
    · rw [List.eraseP_cons_of_neg hp] at hg
      rw [List.countP_cons_of_neg _ _ hp] at hcount
      rcases List.mem_cons.mp hg with rfl | hg'
      · exact hp
      · exact ih hcount g hg'

/-- Distinct stored ids bound the number of matches of a delete/lookup
predicate by one. -/
theorem countP_id_le_one (l : List Habit) (id : Nat)
    (hnd : (l.map Habit._id).Nodup) :
    l.countP (fun g => g._id == id) ≤ 1 := by
  have hcount := List.nodup_iff_count_le_one.mp hnd id
  rw [List.count, List.countP_map] at hcount
  exact hcount

/-- C8.  Delete error handling with atomicity: when no stored habit has the
requested id, delete responds 404 and returns the store unchanged (so a
subsequent list is unaffected); when some habit has the id, delete responds
200 and removes the first such habit, and under distinct stored ids no habit
with that id remains. -/
theorem delete_spec (id : Nat) (s : Store) :
    ((∀ g ∈ s.habits, g._id ≠ id) → deleteHabit id s = ((404, none), s)) ∧
    ((∃ g ∈ s.habits, g._id = id) →
      (deleteHabit id s).1.1 = 200 ∧
      (deleteHabit id s).2.habits = s.habits.eraseP (fun g => g._id == id) ∧
      ((s.habits.map Habit._id).Nodup →
        ∀ g ∈ (deleteHabit id s).2.habits, g._id ≠ id)) := by
  constructor
  · intro hno
    have hfind : s.habits.findIdx? (fun h => h._id == id) = none := by
      rw [List.findIdx?_eq_none_iff]
      intro g hg
      simpa using hno g hg
    simp [deleteHabit, hfind]
  · rintro ⟨g, hg, hgid⟩
    have hfind : s.habits.findIdx? (fun h => h._id == id) =
        some (s.habits.findIdx (fun h => h._id == id)) :=
      List.findIdx?_eq_some_of_exists ⟨g, hg, by simp [hgid]⟩
    have hhabits : (deleteHabit id s).2.habits =
        s.habits.eraseP (fun h => h._id == id) := by
      simp only [deleteHabit, hfind]
      exact eraseIdx_findIdx?_eq_eraseP _ _ _ hfind
    refine ⟨by simp [deleteHabit, hfind], hhabits, ?_⟩
    intro hnd g' hg'
    rw [hhabits] at hg'
    have := eraseP_no_match _ _ (countP_id_le_one s.habits id hnd) g' hg'
    simpa using this

/-- Witness for C8: deleting the unknown id 7 in a one-habit store is a 404
that leaves the store unchanged; deleting id 1 removes the habit. -/
theorem delete_spec_witness :
    deleteHabit 7 ⟨[⟨1, "run", [], [], 0⟩], 2⟩ =
      ((404, none), ⟨[⟨1, "run", [], [], 0⟩], 2⟩) ∧
    (deleteHabit 1 ⟨[⟨1, "run", [], [], 0⟩], 2⟩).1.1 = 200 ∧
    (deleteHabit 1 ⟨[⟨1, "run", [], [], 0⟩], 2⟩).2.habits =
      [⟨1, "run", [], [], 0⟩].eraseP (fun g => g._id == 1) ∧
    ∀ g ∈ (deleteHabit 1 ⟨[⟨1, "run", [], [], 0⟩], 2⟩).2.habits, g._id ≠ 1 := by
  have h404 :=
    (delete_spec 7 ⟨[⟨1, "run", [], [], 0⟩], 2⟩).1 (by decide)
  have h200 :=
    (delete_spec 1 ⟨[⟨1, "run", [], [], 0⟩], 2⟩).2
      ⟨⟨1, "run", [], [], 0⟩, by decide, rfl⟩
  exact ⟨h404, h200.1, h200.2.1, h200.2.2 (by decide)⟩

/-- C9 counterexample: the endpoint does not always respond with a quote
object having non-empty `text` and `author`.  When the fetch succeeds with
the parsed list `[]`, `quotes[0]` is `undefined` and no quote object is
returned at all; when it succeeds with a quote whose fields are empty, that
quote is returned unvalidated. -/
theorem motivation_counterexample :
    motivation (Except.ok []) 0 = none ∧
    motivation (Except.ok [⟨"", ""⟩]) 0 = some ⟨"", ""⟩ := by
  exact ⟨rfl, rfl⟩

/-- C9 amended: on every fetch failure (network error, timeout, malformed
response) and every random index below 3, the endpoint responds with an
element of the fixed built-in list of 3 quotes, which has non-empty `text`
and `author`; on fetch success the parsed element at the random index is
returned without validation of its fields. -/
theorem motivation_fallback (e : String) (i : Nat) (hi : i < 3) :
    (∃ q, motivation (Except.error e) i = some q ∧ q ∈ fallbackQuotes ∧
      q.text ≠ "" ∧ q.author ≠ "") ∧
    ∀ quotes : List Quote, motivation (Except.ok quotes) i = quotes[i]? := by
  refine ⟨?_, fun quotes => rfl⟩
  interval_cases i
  · exact ⟨_, rfl, by decide, by decide, by decide⟩
  · exact ⟨_, rfl, by decide, by decide, by decide⟩
  · exact ⟨_, rfl, by decide, by decide, by decide⟩

/-- Witness for C9 amended: a timeout with random index 2 yields the third
built-in quote. -/
theorem motivation_fallback_witness :
    (∃ q, motivation (Except.error "Request timeout") 2 = some q ∧
      q ∈ fallbackQuotes ∧ q.text ≠ "" ∧ q.author ≠ "") ∧
    ∀ quotes : List Quote,
      motivation (Except.ok quotes) 2 = quotes[2]? :=
  motivation_fallback "Request timeout" 2 (by decide)

/-- A toggle never changes the habit id. -/
theorem toggleHabit_id (today : String) (w : Nat) (h : Habit) :
    (toggleHabit today w h)._id = h._id := by
  unfold toggleHabit
  split <;> rfl

/-- `updateFirst` keeps the stored ids whenever the update function does. -/
theorem map_id_updateFirst (p : Habit → Bool) (f : Habit → Habit)
    (hf : ∀ h, (f h)._id = h._id) :
    ∀ l : List Habit, (updateFirst p f l).map Habit._id = l.map Habit._id := by
  intro l
  induction l with
  | nil => rfl
  | cons a t ih =>
    by_cases hp : p a
    · simp [updateFirst, hp, hf]
    · simp [updateFirst, hp, ih]

/-- The in-memory invariant: the counter is at least 1, every stored id is
below the counter, and stored ids are pairwise distinct. -/
def goodStore (s : Store) : Prop :=
  1 ≤ s.habitId ∧ (∀ g ∈ s.habits, g._id < s.habitId) ∧
    (s.habits.map Habit._id).Nodup

/-- Store states reachable through the in-memory handlers from process
start. -/
inductive ReachableStore : Store → Prop where
  | init : ReachableStore initialStore
  | create (title? : Option String) (now : Nat) (s : Store) :
      ReachableStore s → ReachableStore (createHabit title? now s).2
  | toggle (id : Nat) (today : String) (w : Nat) (s : Store) :
      ReachableStore s → ReachableStore (toggleEndpoint id today w s).2
  | del (id : Nat) (s : Store) :
      ReachableStore s → ReachableStore (deleteHabit id s).2

/-- Every handler preserves the in-memory invariant, so every reachable
store satisfies it. -/
theorem goodStore_reachable (s : Store) (hr : ReachableStore s) :
    goodStore s := by
  induction hr with
  | init => exact ⟨Nat.le_refl 1, by simp [initialStore], by simp [initialStore]⟩
  | create title? now s hr ih =>
    obtain ⟨h1, h2, h3⟩ := ih
    cases title? with
    | none => exact ⟨h1, h2, h3⟩
    | some t =>
      by_cases hc : t = "" ∨ jsTrim t = ""
      · simp only [createHabit, if_pos hc]
        exact ⟨h1, h2, h3⟩
      · simp only [createHabit, if_neg hc]
        have hnotin : s.habitId ∉ s.habits.map Habit._id := by
          intro hmem
          obtain ⟨g, hg, hgid⟩ := List.mem_map.mp hmem
          exact absurd (h2 g hg) (by omega)
        refine ⟨Nat.le_succ_of_le h1, ?_, ?_⟩
        · intro g hg
          rcases List.mem_append.mp hg with hg' | hg'
          · exact Nat.lt_succ_of_lt (h2 g hg')
          · simp only [List.mem_singleton] at hg'
            subst hg'
            exact Nat.lt_succ_self _
        · rw [List.map_append]
          simp [List.nodup_append, h3, hnotin]
  | toggle id today w s hr ih =>
    obtain ⟨h1, h2, h3⟩ := ih
    cases hf : s.habits.find? (fun h => h._id == id) with
    | none =>
      simp only [toggleEndpoint, hf]
      exact ⟨h1, h2, h3⟩
    | some h =>
      simp only [toggleEndpoint, hf]
      have hmap := map_id_updateFirst (fun g => g._id == id)
        (toggleHabit today w) (toggleHabit_id today w) s.habits
      refine ⟨h1, ?_, ?_⟩
      · intro g hg
        have hgid : g._id ∈ s.habits.map Habit._id := by
          rw [← hmap]
          exact List.mem_map_of_mem Habit._id hg
        obtain ⟨g0, hg0, hgid0⟩ := List.mem_map.mp hgid
        rw [← hgid0]
        exact h2 g0 hg0
      · rw [hmap]
        exact h3
  | del id s hr ih =>
    obtain ⟨h1, h2, h3⟩ := ih
    cases hf : s.habits.findIdx? (fun h => h._id == id) with
    | none =>
      simp only [deleteHabit, hf]
      exact ⟨h1, h2, h3⟩
    | some i =>
      simp only [deleteHabit, hf]
      have hsub := List.eraseIdx_sublist s.habits i
      refine ⟨h1, ?_, ?_⟩
      · intro g hg
        exact h2 g (hsub.mem hg)
      · exact h3.sublist (hsub.map Habit._id)

/-- C10.  In the in-memory backend, ids come from a counter that starts at 1
and only increases, so in every reachable store the stored ids are pairwise
distinct (all below the counter), and any lookup or delete predicate by id
matches at most one habit. -/
theorem reachable_distinct_ids (s : Store) (hr : ReachableStore s) :
    1 ≤ s.habitId ∧ (∀ g ∈ s.habits, g._id < s.habitId) ∧
    (s.habits.map Habit._id).Nodup ∧
    ∀ id, s.habits.countP (fun g => g._id == id) ≤ 1 := by
  obtain ⟨h1, h2, h3⟩ := goodStore_reachable s hr
  exact ⟨h1, h2, h3, fun id => countP_id_le_one s.habits id h3⟩

/-- Witness for C10: the store after one successful create is reachable and
has distinct ids. -/
theorem reachable_distinct_ids_witness :
    1 ≤ (createHabit (some "run") 0 initialStore).2.habitId ∧
    (∀ g ∈ (createHabit (some "run") 0 initialStore).2.habits,
      g._id < (createHabit (some "run") 0 initialStore).2.habitId) ∧
    ((createHabit (some "run") 0 initialStore).2.habits.map Habit._id).Nodup ∧
    ∀ id, (createHabit (some "run") 0 initialStore).2.habits.countP
      (fun g => g._id == id) ≤ 1 :=
  reachable_distinct_ids (createHabit (some "run") 0 initialStore).2
    (ReachableStore.create (some "run") 0 initialStore ReachableStore.init)
